import Mathlib

/-!
Verification of the `audit` package (event model, diff reconstruction,
filtering) and its slog ingestion adapter, via a shallow embedding.

Go `any` payload values are embedded as the inductive `GoVal`.  Go
comparison of two `any` values (`old != val.Data`) is total on values of
distinct dynamic types and on comparable types, and panics at run time
when both operands have the same non-comparable dynamic type (slices,
maps); it is embedded as `goEq`, returning `none` for the panic.
Functions that may panic return `Option`; `none` models the panic.

Go maps (`map[string]Value`, the `state` map, payload maps) are embedded
as association lists with unique keys; list order stands in for Go's
(unspecified) map iteration order.  `time.Now()` is embedded as a caller
supplied `Nat` tick.
-/

namespace Audit

/-- Embedding of a Go `any` payload value.  The `slice` constructor covers
the non-comparable container kinds (slices, maps); `ty` records the Go
dynamic type name so that two containers of the same dynamic type compare
like Go interfaces do (a run-time panic).  Every operation of this
package treats container contents opaquely (it never traverses their
elements), so the elements are embedded as their opaque printed
representations. -/
inductive GoVal where
  | nil
  | str (s : String)
  | int (n : Int)
  | bool (b : Bool)
  | slice (ty : String) (elems : List String)
  deriving DecidableEq

/-- Go equality of two interface values (`x == y` on `any`): values of
different dynamic types are unequal; comparable values compare by value;
two values of the same non-comparable dynamic type make the comparison
panic, embedded as `none`. -/
def goEq : GoVal → GoVal → Option Bool
  | .nil, .nil => some true
  | .str a, .str b => some (decide (a = b))
  | .int a, .int b => some (decide (a = b))
  | .bool a, .bool b => some (decide (a = b))
  | .slice t _, .slice u _ => if t = u then none else some false
  | _, _ => some false

/-- `type Value struct { Data any; Hidden bool }`. -/
structure Value where
  Data : GoVal
  Hidden : Bool
  deriving DecidableEq

/-- `type ChangeField struct { Field string; From, To any }`. -/
structure ChangeField where
  Field : String
  From : GoVal
  To : GoVal
  deriving DecidableEq

/-- `type Change struct { Fields []ChangeField; Description, Author string; Timestamp time.Time }`. -/
structure Change where
  Fields : List ChangeField
  Description : String
  Author : String
  Timestamp : Nat
  deriving DecidableEq

/-- `type Action string`. -/
abbrev Action := String

def ActionCreate : Action := "create"
def ActionUpdate : Action := "update"
def ActionDelete : Action := "delete"

/-- `HideText = "***"`. -/
def HideText : String := "***"

/-- The redaction marker as an `any` value (`from = HideText`). -/
def HideTextV : GoVal := .str HideText

/-- A payload `map[string]Value`, embedded as an association list. -/
abbrev Payload := List (String × Value)

/-- `type Event struct { Timestamp time.Time; Action Action; Author, Description string; Payload map[string]Value }`. -/
structure Event where
  Timestamp : Nat
  Action : Action
  Author : String
  Description : String
  Payload : List (String × Value)
  deriving DecidableEq

/-- `HiddenValue() Value` returns `Value{Hidden: true}`. -/
def HiddenValue : Value := { Data := .nil, Hidden := true }

/-- `PlainValue(v any) Value` returns `Value{Data: v}`. -/
def PlainValue (v : GoVal) : Value := { Data := v, Hidden := false }

/-- The running `state map[string]any` of `Logs`, as an association list. -/
abbrev State := List (String × GoVal)

/-- Go map read `state[field]`: the zero value `nil` when the key is absent. -/
def stateGet (st : State) (field : String) : GoVal :=
  match st.find? (fun p => decide (p.1 = field)) with
  | some p => p.2
  | none => .nil

/-- Go map write `state[field] = v`. -/
def stateSet (st : State) (field : String) (v : GoVal) : State :=
  if st.any (fun p => decide (p.1 = field)) then
    st.map (fun p => if p.1 = field then (field, v) else p)
  else
    st ++ [(field, v)]

/-- One iteration of the inner loop of `Logger.Logs` for a payload entry
`(field, val)`: reads `old := state[field]`; a hidden value emits the
masked ChangeField unconditionally and leaves `state` alone; a visible
value compares `old != val.Data` (possible panic, `none`), emitting and
updating `state[field]` only when they differ. -/
def logsField (st : State) (field : String) (val : Value) :
    Option (State × List ChangeField) :=
  if val.Hidden then
    some (st, [{ Field := field, From := HideTextV, To := HideTextV }])
  else
    match goEq (stateGet st field) val.Data with
    | none => none
    | some true => some (st, [])
    | some false =>
      some (stateSet st field val.Data,
        [{ Field := field, From := stateGet st field, To := val.Data }])

/-- The inner loop of `Logger.Logs` over one event's payload, building
`change.Fields` by successive appends. -/
def logsFields (st : State) : List (String × Value) → Option (State × List ChangeField)
  | [] => some (st, [])
  | (f, v) :: rest =>
    (logsField st f v).bind fun r1 =>
      (logsFields r1.1 rest).map fun r2 => (r2.1, r1.2 ++ r2.2)

/-- The outer loop of `Logger.Logs`: one `Change` per event, carrying the
event's Description, Author and Timestamp, threading the running `state`. -/
def logsLoop (st : State) : List Event → Option (State × List Change)
  | [] => some (st, [])
  | e :: es =>
    (logsFields st e.Payload).bind fun r1 =>
      (logsLoop r1.1 es).map fun r2 =>
        (r2.1, { Fields := r1.2, Description := e.Description,
                 Author := e.Author, Timestamp := e.Timestamp } :: r2.2)

/-- `Logger.Logs` applied to the event sequence `storage.Get(key)` returns:
`state` starts empty, events are replayed left to right.  `none` models a
run-time panic of the `old != val.Data` comparison. -/
def Logs (events : List Event) : Option (List Change) :=
  (logsLoop [] events).map Prod.snd

/-- The `hasField` check of `Logger.Events`: does the payload contain at
least one of the requested field names? -/
def payloadHasAny (p : List (String × Value)) (fields : List String) : Bool :=
  p.any (fun kv => fields.contains kv.1)

/-- The payload-restriction loop of `Logger.Events`: keep exactly the
entries whose key is in the requested field set. -/
def restrictPayload (p : List (String × Value)) (fields : List String) :
    List (String × Value) :=
  p.filter (fun kv => fields.contains kv.1)

/-- The filtering loop of `Logger.Events` for a non-empty field list:
skip events having none of the requested fields, keep the rest in order
with restricted payloads. -/
def eventsLoop (fields : List String) : List Event → List Event
  | [] => []
  | e :: rest =>
    if payloadHasAny e.Payload fields then
      { e with Payload := restrictPayload e.Payload fields } :: eventsLoop fields rest
    else
      eventsLoop fields rest

/-- `Logger.Events` applied to the event sequence `storage.Get(key)`:
with no requested fields it returns the events (a copy of the slice);
otherwise it filters and restricts.  Aliasing of payload maps through the
copied slice is treated separately in the reference model below. -/
def Events (events : List Event) (fields : List String) : List Event :=
  if fields.isEmpty then events
  else eventsLoop fields events

/-- Modelled from the spec: the `Storage` backend (`storage.go` is not
among the sources; only its tests and callers are).  Per the spec, it is
an in-memory mapping from key to the ordered sequence of stored events,
embedded as an association list. -/
abbrev StorageMap := List (String × List Event)

/-- Modelled from the spec: `Storage.Get(key)` returns the full, in-order
sequence of events previously stored for the key, and an empty sequence
for an unknown key. -/
def storeGet (s : StorageMap) (key : String) : List Event :=
  match s.find? (fun p => decide (p.1 = key)) with
  | some p => p.2
  | none => []

/-- Modelled from the spec: `Storage.Store(key, event)` appends the event
to the ordered sequence for the key, starting a new sequence for an
unknown key; it never fails. -/
def storeStore (s : StorageMap) (key : String) (e : Event) : StorageMap :=
  if s.any (fun p => decide (p.1 = key)) then
    s.map (fun p => if p.1 = key then (key, p.2 ++ [e]) else p)
  else
    s ++ [(key, [e])]

/-- Modelled from the spec: `Storage.Has(key)` is true iff at least one
event has ever been stored for the key and not subsequently cleared. -/
def storeHas (s : StorageMap) (key : String) : Bool :=
  s.any (fun p => decide (p.1 = key))

/-- Modelled from the spec: `Storage.Clear(key)` removes the entire
stored sequence for the key; idempotent on keys with no history. -/
def storeClear (s : StorageMap) (key : String) : StorageMap :=
  s.filter (fun p => decide (p.1 ≠ key))

/-- `Logger.LogChange`: builds an `Event` stamped with the current time
(the caller-supplied tick `now` models `time.Now()`) and delegates to
`Storage.Store`. -/
def LogChange (s : StorageMap) (key : String) (action : Action)
    (author description : String) (payload : List (String × Value)) (now : Nat) :
    StorageMap :=
  storeStore s key
    { Timestamp := now, Action := action, Author := author,
      Description := description, Payload := payload }

/-- `Logger.Create` = `LogChange` with `ActionCreate`. -/
def Create (s : StorageMap) (key author description : String)
    (payload : List (String × Value)) (now : Nat) : StorageMap :=
  LogChange s key ActionCreate author description payload now

/-- `Logger.Update` = `LogChange` with `ActionUpdate`. -/
def Update (s : StorageMap) (key author description : String)
    (payload : List (String × Value)) (now : Nat) : StorageMap :=
  LogChange s key ActionUpdate author description payload now

/-- `Logger.Delete` = `LogChange` with `ActionDelete`. -/
def Delete (s : StorageMap) (key author description : String)
    (payload : List (String × Value)) (now : Nat) : StorageMap :=
  LogChange s key ActionDelete author description payload now

/-- `Logger.Events(key, fields...)`: reads the key's history from storage
and filters it. -/
def loggerEvents (s : StorageMap) (key : String) (fields : List String) :
    List Event :=
  Events (storeGet s key) fields

/-- `Logger.Logs(key)`: reads the key's history from storage and runs the
diff reconstruction. -/
def loggerLogs (s : StorageMap) (key : String) : Option (List Change) :=
  Logs (storeGet s key)

/-- One Engine write call (`Create`, `Update`, `Delete` or the generic
`LogChange`), with its `time.Now()` tick; the three convenience methods
are `LogChange` with a fixed action. -/
structure WriteCall where
  action : Action
  author : String
  description : String
  payload : List (String × Value)
  timestamp : Nat
  deriving DecidableEq

/-- The event a write call appends (what `LogChange` builds). -/
def WriteCall.toEvent (w : WriteCall) : Event :=
  { Timestamp := w.timestamp, Action := w.action, Author := w.author,
    Description := w.description, Payload := w.payload }

/-- Apply a sequence of keyed write calls to the storage, in call order. -/
def applyWrites (s : StorageMap) : List (String × WriteCall) → StorageMap
  | [] => s
  | (key, w) :: rest =>
    applyWrites (LogChange s key w.action w.author w.description w.payload w.timestamp) rest

/-! ## Reference model with explicit payload aliasing

`Logger.Events` with no field filter copies the event slice element-wise
(`copy(result, events)`).  A Go `Event` struct holds its `Payload` map by
reference, so the copied structs still reference the stored payload
maps.  To reason about this sharing, events are re-modelled with an
explicit heap: `EventR.Payload` is an address into a heap of payload
maps, and a caller mutation is a heap write through that address. -/

/-- An event whose payload map is held by reference (a heap address). -/
structure EventR where
  Timestamp : Nat
  Action : Action
  Author : String
  Description : String
  Payload : Nat
  deriving DecidableEq

/-- The heap of payload maps, indexed by address. -/
abbrev Heap := List (List (String × Value))

/-- Dereference a payload map address. -/
def heapGet (h : Heap) (a : Nat) : List (String × Value) :=
  (h.get? a).getD []

/-- Mutate the payload map at an address (a caller writing through a map
reference it obtained). -/
def heapSet (h : Heap) (a : Nat) (m : List (String × Value)) : Heap :=
  h.set a m

/-- Storage over by-reference events. -/
abbrev StorageR := List (String × List EventR)

/-- Modelled from the spec: `Storage.Get` in the by-reference model; the
returned slice is a snapshot, but the `EventR` structs in it still hold
their payload maps by reference. -/
def storeGetR (s : StorageR) (key : String) : List EventR :=
  match s.find? (fun p => decide (p.1 = key)) with
  | some p => p.2
  | none => []

/-- `Logger.Events(key)` with no field filter, in the by-reference model:
`result := make([]Event, len(events)); copy(result, events)` copies the
`Event` structs (shallow copy), so each returned struct keeps the same
`Payload` map address as the stored one. -/
def eventsNoFilterR (s : StorageR) (key : String) : List EventR :=
  storeGetR s key

/-- Read an event's observable content through the heap (what a caller or
a subsequent `Events`/`Logs` call sees). -/
def derefEvent (h : Heap) (e : EventR) : Event :=
  { Timestamp := e.Timestamp, Action := e.Action, Author := e.Author,
    Description := e.Description, Payload := heapGet h e.Payload }

end Audit

namespace Audit.Slog

/-! ## The slog ingestion adapter (`slog/handler.go`)

`slog.Attr` is embedded as a key plus a `GoVal`; `attr.Value.String()` is
`goValString` and `attr.Value.Any()` is the `GoVal` itself.  The
underlying delegate handler is abstracted to its `Handle` result (an
optional error); `context.Context` is dropped (the default author
extractor ignores it). -/

/-- A `slog.Attr`: a key and a value. -/
structure Attr where
  Key : String
  Val : GoVal
  deriving DecidableEq

/-- `slog.Value.String()`: the textual rendering of an attribute value;
only the rendering of string values is relied upon by the adapter. -/
def goValString : GoVal → String
  | .nil => "<nil>"
  | .str s => s
  | .int n => toString n
  | .bool b => if b then "true" else "false"
  | .slice _ es => String.intercalate " " es

/-- A `slog.Record`: message plus record-level attributes. -/
structure Record where
  Message : String
  attrs : List Attr
  deriving DecidableEq

/-- `AttrEntity = "entity"`. -/
def AttrEntity : String := "entity"

/-- `AttrAction = "action"`. -/
def AttrAction : String := "action"

/-- `AttrAuthor = "author"`. -/
def AttrAuthor : String := "author"

/-- `AttrUser = "user"`. -/
def AttrUser : String := "user"

/-- `DefaultActionExtractor`: the first `action` attribute decides via its
string rendering, defaulting to `create` for unrecognized values; with no
`action` attribute the result is `create`. -/
def DefaultActionExtractor (attrs : List Attr) : Action :=
  match attrs.find? (fun a => decide (a.Key = AttrAction)) with
  | some a =>
    match goValString a.Val with
    | "create" => ActionCreate
    | "update" => ActionUpdate
    | "delete" => ActionDelete
    | _ => ActionCreate
  | none => ActionCreate

/-- `DefaultAuthorExtractor`: the first `author` or `user` attribute wins;
otherwise the literal `"system"`.  (The Go version also receives a
`context.Context` it ignores.) -/
def DefaultAuthorExtractor (attrs : List Attr) : String :=
  match attrs.find? (fun a => decide (a.Key = AttrAuthor ∨ a.Key = AttrUser)) with
  | some a => goValString a.Val
  | none => "system"

/-- Go map insertion `payload[k] = v` (later writes overwrite). -/
def mapSet (m : List (String × Value)) (k : String) (v : Value) :
    List (String × Value) :=
  if m.any (fun p => decide (p.1 = k)) then
    m.map (fun p => if p.1 = k then (k, v) else p)
  else
    m ++ [(k, v)]

/-- The reserved attribute keys consumed for key/action/author resolution. -/
def reservedKeys : List String := [AttrEntity, AttrAction, AttrAuthor, AttrUser]

/-- `DefaultPayloadExtractor`: every attribute except the reserved keys
becomes a `PlainValue` payload entry (`attr.Value.Any()`). -/
def DefaultPayloadExtractor (attrs : List Attr) : List (String × Value) :=
  attrs.foldl
    (fun acc a =>
      if reservedKeys.contains a.Key then acc
      else mapSet acc a.Key (PlainValue a.Val))
    []

/-- `HandlerOptions`: optional configuration; `Handler` (the delegate) is
abstracted to its `Handle` result on a record. -/
structure HandlerOptions where
  Handler : Option (Record → Option String)
  ShouldAudit : Option (Record → Bool)
  KeyExtractor : Option (List Attr → Option String)
  ActionExtractor : Option (List Attr → Action)
  AuthorExtractor : Option (List Attr → String)
  PayloadExtractor : Option (List Attr → List (String × Value))

/-- The constructed `Handler`: extractors resolved (defaults filled in),
plus the handler-level attributes accumulated by `WithAttrs`. -/
structure Handler where
  handler : Option (Record → Option String)
  shouldAudit : Option (Record → Bool)
  keyExtractor : List Attr → Option String
  actionExtractor : List Attr → Action
  authorExtractor : List Attr → String
  payloadExtractor : List Attr → List (String × Value)
  attrs : List Attr

/-- `NewHandler`: panics (`none`) when `KeyExtractor` is nil, otherwise
returns the handler with default extractors filled in for the absent ones
and empty handler-level attributes. -/
def NewHandler (opts : HandlerOptions) : Option Handler :=
  match opts.KeyExtractor with
  | none => none
  | some ke =>
    some
      { handler := opts.Handler
        shouldAudit := opts.ShouldAudit
        keyExtractor := ke
        actionExtractor := opts.ActionExtractor.getD DefaultActionExtractor
        authorExtractor := opts.AuthorExtractor.getD DefaultAuthorExtractor
        payloadExtractor := opts.PayloadExtractor.getD DefaultPayloadExtractor
        attrs := [] }

/-- The arguments of the one Engine call `Handle` makes
(`logger.LogChange(key, action, author, record.Message, payload)`). -/
structure EngineCall where
  key : String
  action : Action
  author : String
  description : String
  payload : List (String × Value)
  deriving DecidableEq

/-- The audit part of `Handler.Handle` after delegation and the
`ShouldAudit` gate: collect handler-level then record-level attributes,
skip (no Engine call, nil error) when no entity key resolves, otherwise
make the one Engine call. -/
def handleCore (h : Handler) (r : Record) : Option String × Option EngineCall :=
  let allAttrs := h.attrs ++ r.attrs
  match h.keyExtractor allAttrs with
  | none => (none, none)
  | some key =>
    (none, some
      { key := key
        action := h.actionExtractor allAttrs
        author := h.authorExtractor allAttrs
        description := r.Message
        payload := h.payloadExtractor allAttrs })

/-- The `ShouldAudit` gate of `Handler.Handle`: a nil `ShouldAudit` audits
every record; a false verdict skips (nil error, no Engine call). -/
def handleAudit (h : Handler) (r : Record) : Option String × Option EngineCall :=
  match h.shouldAudit with
  | some f => if f r then handleCore h r else (none, none)
  | none => handleCore h r

/-- `Handler.Handle`: delegate to the underlying handler first (its error
aborts), then run the audit pipeline.  The first component is the
returned error (`none` = success), the second the Engine call made, if
any. -/
def handle (h : Handler) (r : Record) : Option String × Option EngineCall :=
  match h.handler with
  | some d =>
    match d r with
    | some err => (some err, none)
    | none => handleAudit h r
  | none => handleAudit h r

end Audit.Slog

namespace Audit

/-- First concrete C1 event: the field `token` written hidden. -/
def c1e1 : Event :=
  { Timestamp := 1, Action := ActionCreate, Author := "alice",
    Description := "created", Payload := [("token", HiddenValue)] }

/-- Second concrete C1 event: the same field written visibly. -/
def c1e2 : Event :=
  { Timestamp := 2, Action := ActionUpdate, Author := "bob",
    Description := "updated", Payload := [("token", PlainValue (.str "t1"))] }

/-- Concrete input for C1: a field first written hidden, then visibly. -/
def c1Events : List Event := [c1e1, c1e2]

/-- The reconstructed change history of `c1Events`. -/
def c1Changes : List Change :=
  [{ Fields := [{ Field := "token", From := HideTextV, To := HideTextV }],
     Description := "created", Author := "alice", Timestamp := 1 },
   { Fields := [{ Field := "token", From := .nil, To := .str "t1" }],
     Description := "updated", Author := "bob", Timestamp := 2 }]

/-- First concrete C2 event: the field `status` set to `"new"`. -/
def c2e1 : Event :=
  { Timestamp := 10, Action := ActionCreate, Author := "carol",
    Description := "first", Payload := [("status", PlainValue (.str "new"))] }

/-- Second concrete C2 event: the identical visible write repeated. -/
def c2e2 : Event :=
  { Timestamp := 11, Action := ActionUpdate, Author := "dave",
    Description := "second", Payload := [("status", PlainValue (.str "new"))] }

/-! ## Similarity up to hidden data (for the noninterference claim) -/

/-- Do two values agree on visibility and, when visible, on data?  (The
data of hidden values is unconstrained.) -/
def valueSimB (v w : Value) : Bool :=
  (v.Hidden == w.Hidden) && (v.Hidden || decide (v.Data = w.Data))

/-- Pointwise similarity of payloads: same field names in the same order,
similar values. -/
def payloadSimB : List (String × Value) → List (String × Value) → Bool
  | [], [] => true
  | a :: as, b :: bs => decide (a.1 = b.1) && valueSimB a.2 b.2 && payloadSimB as bs
  | _, _ => false

/-- Events identical except possibly in the data of hidden values. -/
def eventSimB (e1 e2 : Event) : Bool :=
  decide (e1.Timestamp = e2.Timestamp) && decide (e1.Action = e2.Action) &&
  decide (e1.Author = e2.Author) && decide (e1.Description = e2.Description) &&
  payloadSimB e1.Payload e2.Payload

/-- Pointwise similarity of event sequences. -/
def eventsSimB : List Event → List Event → Bool
  | [], [] => true
  | a :: as, b :: bs => eventSimB a b && eventsSimB as bs
  | _, _ => false

/-! ## Concrete sample data for the remaining claims -/

/-- First concrete C3 event: fields `status` and `email`. -/
def c3e1 : Event :=
  { Timestamp := 1, Action := ActionCreate, Author := "erin",
    Description := "made",
    Payload := [("status", PlainValue (.str "a")), ("email", PlainValue (.str "e"))] }

/-- Second concrete C3 event: only the field `email`. -/
def c3e2 : Event :=
  { Timestamp := 2, Action := ActionUpdate, Author := "erin",
    Description := "changed", Payload := [("email", PlainValue (.str "f"))] }

/-- A write call whose payload holds a non-comparable slice value. -/
def sliceWrite (n : Nat) : WriteCall :=
  { action := ActionUpdate, author := "frank", description := "bulk",
    payload := [("items", PlainValue (.slice "[]int" ["1", "2", "3"]))],
    timestamp := n }

/-- A plain string-valued write call. -/
def plainWrite (n : Nat) : WriteCall :=
  { action := ActionCreate, author := "gina", description := "start",
    payload := [("status", PlainValue (.str "pending"))], timestamp := n }

/-- C5 stored history: the same non-comparable slice value written twice
visibly for the same field. -/
def c5Events : List Event := [(sliceWrite 1).toEvent, (sliceWrite 2).toEvent]

/-- C6 heap: one payload map at address 0. -/
def c6Heap : Heap := [[("color", PlainValue (.str "red"))]]

/-- C6 storage: one stored event for `k` whose payload map lives at
address 0. -/
def c6Store : StorageR :=
  [("k", [{ Timestamp := 1, Action := ActionCreate, Author := "hugo",
            Description := "painted", Payload := 0 }])]

/-- A default event used with `List.headD`. -/
def dummyEventR : EventR :=
  { Timestamp := 0, Action := ActionCreate, Author := "", Description := "",
    Payload := 0 }

/-- C7 first history: a hidden value carrying one secret. -/
def c7Events1 : List Event :=
  [{ Timestamp := 1, Action := ActionCreate, Author := "ivy",
     Description := "new",
     Payload := [("card", { Data := .str "4111", Hidden := true }),
                 ("name", PlainValue (.str "Ivy"))] }]

/-- C7 second history: the same except for the hidden data. -/
def c7Events2 : List Event :=
  [{ Timestamp := 1, Action := ActionCreate, Author := "ivy",
     Description := "new",
     Payload := [("card", { Data := .str "5500", Hidden := true }),
                 ("name", PlainValue (.str "Ivy"))] }]

/-- A key extractor returning a fixed key. -/
def c8ke : List Slog.Attr → Option String := fun _ => some "order:7"

/-- Options with only the key extractor set. -/
def c8opts : Slog.HandlerOptions :=
  { Handler := none, ShouldAudit := none, KeyExtractor := some c8ke,
    ActionExtractor := none, AuthorExtractor := none, PayloadExtractor := none }

/-- Options with no key extractor at all. -/
def c8optsNone : Slog.HandlerOptions :=
  { Handler := none, ShouldAudit := none, KeyExtractor := none,
    ActionExtractor := none, AuthorExtractor := none, PayloadExtractor := none }

/-- A concrete constructed handler with default extractors. -/
def c9handler : Slog.Handler :=
  { handler := none, shouldAudit := none, keyExtractor := c8ke,
    actionExtractor := Slog.DefaultActionExtractor,
    authorExtractor := Slog.DefaultAuthorExtractor,
    payloadExtractor := Slog.DefaultPayloadExtractor, attrs := [] }

/-- A handler identical to `c9handler` but never resolving a key. -/
def c9handlerNoKey : Slog.Handler :=
  { handler := none, shouldAudit := none, keyExtractor := fun _ => none,
    actionExtractor := Slog.DefaultActionExtractor,
    authorExtractor := Slog.DefaultAuthorExtractor,
    payloadExtractor := Slog.DefaultPayloadExtractor, attrs := [] }

/-- A concrete slog record with an entity attribute and one data
attribute, but no action or author attribute. -/
def c9record : Slog.Record :=
  { Message := "order placed",
    attrs := [{ Key := "entity", Val := .str "order:7" },
              { Key := "qty", Val := .int 3 }] }

/-! ## Helper lemmas -/

theorem goEq_true_eq {a b : GoVal} (h : goEq a b = some true) : a = b := by
  cases a <;> cases b <;> simp_all [goEq]

theorem goEq_refl_of_ne_none {a : GoVal} (h : goEq a a ≠ none) :
    goEq a a = some true := by
  cases a <;> simp_all [goEq]

theorem goEq_nil_left {d : GoVal} (h : d ≠ .nil) : goEq .nil d = some false := by
  cases d <;> simp_all [goEq]

theorem find?_map_set_self (st : State) (f : String) (v : GoVal)
    (h : st.any (fun p => decide (p.1 = f)) = true) :
    List.find? (fun p => decide (p.1 = f))
      (st.map (fun p => if p.1 = f then (f, v) else p)) = some (f, v) := by
  induction st with
  | nil => simp at h
  | cons q rest ih =>
    simp only [List.any_cons, Bool.or_eq_true, decide_eq_true_eq] at h
    by_cases hq : q.1 = f
    · simp only [List.map_cons, if_pos hq]
      exact List.find?_cons_of_pos _ (by simp)
    · simp only [List.map_cons, if_neg hq]
      rw [List.find?_cons_of_neg _ (by simpa using hq)]
      refine ih ?_
      rcases h with h | h
      · exact absurd h hq
      · exact h

theorem find?_append_last (st : State) (f : String) (v : GoVal)
    (h : ¬ st.any (fun p => decide (p.1 = f)) = true) :
    List.find? (fun p => decide (p.1 = f)) (st ++ [(f, v)]) = some (f, v) := by
  rw [List.find?_append]
  cases hfind : List.find? (fun p => decide (p.1 = f)) st with
  | none => simp [List.find?]
  | some p =>
    have hp := List.find?_some hfind
    have hmem := List.mem_of_find?_eq_some hfind
    exact absurd (List.any_eq_true.mpr ⟨p, hmem, hp⟩) h

theorem find?_map_set_ne (st : State) (f g : String) (v : GoVal) (hne : g ≠ f) :
    List.find? (fun p => decide (p.1 = g))
      (st.map (fun p => if p.1 = f then (f, v) else p)) =
    List.find? (fun p => decide (p.1 = g)) st := by
  induction st with
  | nil => rfl
  | cons q rest ih =>
    by_cases hq : q.1 = f
    · simp only [List.map_cons, if_pos hq]
      rw [List.find?_cons_of_neg _ (by simpa using fun hh => hne hh.symm),
          List.find?_cons_of_neg _
            (by simp only [decide_eq_true_eq]; rw [hq]; exact fun hh => hne hh.symm)]
      exact ih
    · simp only [List.map_cons, if_neg hq]
      by_cases hqg : q.1 = g
      · rw [List.find?_cons_of_pos _ (by simpa using hqg),
            List.find?_cons_of_pos _ (by simpa using hqg)]
      · rw [List.find?_cons_of_neg _ (by simpa using hqg),
            List.find?_cons_of_neg _ (by simpa using hqg)]
        exact ih

theorem find?_append_ne (st : State) (f g : String) (v : GoVal) (hne : g ≠ f) :
    List.find? (fun p => decide (p.1 = g)) (st ++ [(f, v)]) =
    List.find? (fun p => decide (p.1 = g)) st := by
  rw [List.find?_append]
  cases hfind : List.find? (fun p => decide (p.1 = g)) st with
  | none =>
    simp only [Option.none_or]
    rw [List.find?_cons_of_neg _ (by simpa using fun hh => hne hh.symm)]
    rfl
  | some p => rfl

theorem stateGet_set_self (st : State) (f : String) (v : GoVal) :
    stateGet (stateSet st f v) f = v := by
  unfold stateSet
  split
  · next h => simp [stateGet, find?_map_set_self st f v h]
  · next h => simp [stateGet, find?_append_last st f v h]

theorem stateGet_set_ne (st : State) (f g : String) (v : GoVal) (hne : g ≠ f) :
    stateGet (stateSet st f v) g = stateGet st g := by
  unfold stateSet
  split
  · simp [stateGet, find?_map_set_ne st f g v hne]
  · simp [stateGet, find?_append_ne st f g v hne]

theorem logsField_state_ne {st st' : State} {f : String} {v : Value}
    {cfs : List ChangeField} (h : logsField st f v = some (st', cfs)) :
    ∀ g, g ≠ f → stateGet st' g = stateGet st g := by
  intro g hg
  unfold logsField at h
  split at h
  · cases h; rfl
  · split at h
    · cases h
    · cases h; rfl
    · cases h; exact stateGet_set_ne st f g v.Data hg

theorem logsField_state_hidden {st st' : State} {f : String} {v : Value}
    {cfs : List ChangeField} (h : logsField st f v = some (st', cfs))
    (hv : v.Hidden = true) : st' = st := by
  unfold logsField at h
  rw [if_pos hv] at h
  cases h; rfl

theorem logsFields_state_pres {f : String} (p : List (String × Value)) :
    ∀ st st' cfs, logsFields st p = some (st', cfs) →
    (∀ kv ∈ p, kv.1 = f → kv.2.Hidden = true) →
    stateGet st' f = stateGet st f := by
  induction p with
  | nil =>
    intro st st' cfs h _
    simp only [logsFields] at h
    cases h; rfl
  | cons kv rest ih =>
    intro st st' cfs h hall
    obtain ⟨g, w⟩ := kv
    simp only [logsFields, Option.bind_eq_some, Option.map_eq_some'] at h
    obtain ⟨⟨st1, cf⟩, hf, ⟨st2, cfs2⟩, hrest, heq⟩ := h
    cases heq
    rw [ih st1 st2 cfs2 hrest (fun kv hm => hall kv (List.mem_cons_of_mem _ hm))]
    by_cases hgf : g = f
    · subst hgf
      rw [logsField_state_hidden hf (hall (g, w) (List.mem_cons_self _ _) rfl)]
    · exact logsField_state_ne hf f (fun hc => hgf hc.symm)

theorem logsFields_hidden_mem {f : String} {v : Value} (p : List (String × Value)) :
    ∀ st st' cfs, logsFields st p = some (st', cfs) → (f, v) ∈ p →
    v.Hidden = true →
    ({ Field := f, From := HideTextV, To := HideTextV } : ChangeField) ∈ cfs := by
  induction p with
  | nil =>
    intro st st' cfs _ hm
    simp at hm
  | cons kv rest ih =>
    intro st st' cfs h hm hv
    obtain ⟨g, w⟩ := kv
    simp only [logsFields, Option.bind_eq_some, Option.map_eq_some'] at h
    obtain ⟨⟨st1, cf⟩, hf, ⟨st2, cfs2⟩, hrest, heq⟩ := h
    cases heq
    rcases List.mem_cons.mp hm with h1 | h1
    · have hg : g = f := (congrArg Prod.fst h1.symm : _)
      have hw : w = v := (congrArg Prod.snd h1.symm : _)
      subst hg; subst hw
      unfold logsField at hf
      rw [if_pos hv] at hf
      cases hf
      exact List.mem_append_left _ (List.mem_singleton.mpr rfl)
    · exact List.mem_append_right _ (ih st1 st2 cfs2 hrest h1 hv)

theorem logsLoop_length (es : List Event) :
    ∀ st st' cs, logsLoop st es = some (st', cs) → cs.length = es.length := by
  induction es with
  | nil =>
    intro st st' cs h
    simp only [logsLoop] at h
    cases h; rfl
  | cons e rest ih =>
    intro st st' cs h
    simp only [logsLoop, Option.bind_eq_some, Option.map_eq_some'] at h
    obtain ⟨⟨st1, cfs⟩, hf, ⟨st2, cs2⟩, hrest, heq⟩ := h
    cases heq
    simp [ih _ _ _ hrest]

theorem logsLoop_metadata (es : List Event) :
    ∀ st st' cs, logsLoop st es = some (st', cs) →
    cs.map (fun c => (c.Description, c.Author, c.Timestamp)) =
      es.map (fun e => (e.Description, e.Author, e.Timestamp)) := by
  induction es with
  | nil =>
    intro st st' cs h
    simp only [logsLoop] at h
    cases h; rfl
  | cons e rest ih =>
    intro st st' cs h
    simp only [logsLoop, Option.bind_eq_some, Option.map_eq_some'] at h
    obtain ⟨⟨st1, cfs⟩, hf, ⟨st2, cs2⟩, hrest, heq⟩ := h
    cases heq
    simp [ih _ _ _ hrest]

theorem logsLoop_append (xs ys : List Event) :
    ∀ st, logsLoop st (xs ++ ys) =
      (logsLoop st xs).bind
        (fun r => (logsLoop r.1 ys).map (fun r2 => (r2.1, r.2 ++ r2.2))) := by
  induction xs with
  | nil =>
    intro st
    simp only [List.nil_append, logsLoop, Option.some_bind]
    cases h : logsLoop st ys with
    | none => rfl
    | some r => rfl
  | cons e rest ih =>
    intro st
    simp only [List.cons_append, logsLoop]
    cases hf : logsFields st e.Payload with
    | none => rfl
    | some r1 =>
      simp only [Option.some_bind, List.append_eq]
      rw [ih r1.1]
      cases hrest : logsLoop r1.1 rest with
      | none => rfl
      | some r2 =>
        simp only [Option.some_bind, Option.map_some']
        cases hys : logsLoop r2.1 ys with
        | none => rfl
        | some r3 => simp

theorem assoc_mem_eq {p : List (String × Value)} (hnd : (p.map Prod.fst).Nodup)
    {k : String} {v w : Value} (hv : (k, v) ∈ p) (hw : (k, w) ∈ p) : v = w := by
  induction p with
  | nil => simp at hv
  | cons q rest ih =>
    simp only [List.map_cons, List.nodup_cons] at hnd
    rcases List.mem_cons.mp hv with h1 | h1 <;> rcases List.mem_cons.mp hw with h2 | h2
    · exact congrArg Prod.snd (h1.trans h2.symm)
    · exact absurd (List.mem_map.mpr ⟨(k, w), h2, (congrArg Prod.fst h1 : _)⟩) hnd.1
    · exact absurd (List.mem_map.mpr ⟨(k, v), h1, (congrArg Prod.fst h2 : _)⟩) hnd.1
    · exact ih hnd.2 h1 h2

theorem logsLoop_hidden (es : List Event) :
    ∀ st st' cs, logsLoop st es = some (st', cs) →
    ∀ i e f v, es.get? i = some e → (f, v) ∈ e.Payload → v.Hidden = true →
    ∃ c, cs.get? i = some c ∧
      ({ Field := f, From := HideTextV, To := HideTextV } : ChangeField) ∈ c.Fields := by
  induction es with
  | nil =>
    intro st st' cs _ i e f v hget
    simp at hget
  | cons e0 rest ih =>
    intro st st' cs h i e f v hget hm hv
    simp only [logsLoop, Option.bind_eq_some, Option.map_eq_some'] at h
    obtain ⟨⟨st1, cfs⟩, hf, ⟨st2, cs2⟩, hrest, heq⟩ := h
    cases heq
    cases i with
    | zero =>
      cases hget
      exact ⟨_, rfl, logsFields_hidden_mem _ _ _ _ hf hm hv⟩
    | succ n =>
      simp only [List.get?_cons_succ] at hget ⊢
      exact ih st1 st2 cs2 hrest n e f v hget hm hv

theorem logsLoop_state_pres {f : String} (es : List Event) :
    ∀ st st' cs, logsLoop st es = some (st', cs) →
    (∀ e ∈ es, ∀ kv ∈ e.Payload, kv.1 = f → kv.2.Hidden = true) →
    stateGet st' f = stateGet st f := by
  induction es with
  | nil =>
    intro st st' cs h _
    simp only [logsLoop] at h
    cases h; rfl
  | cons e0 rest ih =>
    intro st st' cs h hall
    simp only [logsLoop, Option.bind_eq_some, Option.map_eq_some'] at h
    obtain ⟨⟨st1, cfs⟩, hf, ⟨st2, cs2⟩, hrest, heq⟩ := h
    cases heq
    rw [ih st1 st2 cs2 hrest (fun e he => hall e (List.mem_cons_of_mem _ he))]
    exact logsFields_state_pres _ _ _ _ hf (hall e0 (List.mem_cons_self _ _))

theorem logsFields_first_visible {f : String} {v : Value} (p : List (String × Value)) :
    ∀ st st' cfs, logsFields st p = some (st', cfs) → (f, v) ∈ p →
    (p.map Prod.fst).Nodup → v.Hidden = false → stateGet st f = .nil →
    v.Data ≠ .nil →
    ({ Field := f, From := .nil, To := v.Data } : ChangeField) ∈ cfs := by
  induction p with
  | nil =>
    intro st st' cfs _ hm
    simp at hm
  | cons kv rest ih =>
    intro st st' cfs h hm hnd hv hst hd
    obtain ⟨g, w⟩ := kv
    simp only [logsFields, Option.bind_eq_some, Option.map_eq_some'] at h
    obtain ⟨⟨st1, cf⟩, hf, ⟨st2, cfs2⟩, hrest, heq⟩ := h
    cases heq
    simp only [List.map_cons, List.nodup_cons] at hnd
    rcases List.mem_cons.mp hm with h1 | h1
    · have hg : g = f := (congrArg Prod.fst h1.symm : _)
      have hw : w = v := (congrArg Prod.snd h1.symm : _)
      subst hg; subst hw
      unfold logsField at hf
      rw [if_neg (by simp [hv]), hst, goEq_nil_left hd] at hf
      cases hf
      exact List.mem_append_left _ (List.mem_singleton.mpr rfl)
    · have hgf : g ≠ f := by
        intro hc; subst hc
        exact hnd.1 (List.mem_map.mpr ⟨(g, v), h1, rfl⟩)
      have hst1 : stateGet st1 f = .nil := by
        rw [logsField_state_ne hf f (fun hc => hgf hc.symm)]; exact hst
      exact List.mem_append_right _ (ih st1 st2 cfs2 hrest h1 hnd.2 hv hst1 hd)

/-- C1: in `Logs`, every hidden payload entry emits the masked ChangeField
`(field, "***", "***")` unconditionally, the running state is not updated
for a field written hidden, and a visible write to a field whose whole
prior history is hidden yields `From = nil` (never the hidden value). -/
theorem c1_hidden_redaction
    (events : List Event) (cs : List Change) (h : Logs events = some cs) :
    (∀ i e f v, events.get? i = some e → (f, v) ∈ e.Payload → v.Hidden = true →
      ∃ c, cs.get? i = some c ∧
        ({ Field := f, From := HideTextV, To := HideTextV } : ChangeField) ∈ c.Fields)
    ∧
    (∀ st st' cfs p f v, logsFields st p = some (st', cfs) → (f, v) ∈ p →
      v.Hidden = true → (p.map Prod.fst).Nodup →
      stateGet st' f = stateGet st f)
    ∧
    (∀ pre e post f v, events = pre ++ e :: post →
      (∀ e' ∈ pre, ∀ kv ∈ e'.Payload, kv.1 = f → kv.2.Hidden = true) →
      (f, v) ∈ e.Payload → v.Hidden = false → v.Data ≠ .nil →
      (e.Payload.map Prod.fst).Nodup →
      ∃ c, cs.get? pre.length = some c ∧
        ({ Field := f, From := .nil, To := v.Data } : ChangeField) ∈ c.Fields) := by
  unfold Logs at h
  rw [Option.map_eq_some'] at h
  obtain ⟨⟨stf, cs0⟩, hloop, hcs⟩ := h
  cases hcs
  refine ⟨?_, ?_, ?_⟩
  · intro i e f v hget hm hv
    exact logsLoop_hidden events [] stf cs0 hloop i e f v hget hm hv
  · intro st st' cfs p f v hp hm hv hnd
    refine logsFields_state_pres p st st' cfs hp ?_
    intro kv hkv hk
    obtain ⟨k, w⟩ := kv
    cases hk
    rw [assoc_mem_eq hnd hkv hm]
    exact hv
  · intro pre e post f v hev hpre hm hv hd hnd
    subst hev
    rw [logsLoop_append, Option.bind_eq_some] at hloop
    obtain ⟨⟨stp, csp⟩, hpreloop, htail⟩ := hloop
    rw [Option.map_eq_some'] at htail
    obtain ⟨⟨ste, cse⟩, htailloop, heq2⟩ := htail
    cases heq2
    simp only [logsLoop, Option.bind_eq_some, Option.map_eq_some'] at htailloop
    obtain ⟨⟨st1, cfs⟩, hf, ⟨st2, cs2⟩, hrest, heq3⟩ := htailloop
    cases heq3
    have hstp : stateGet stp f = .nil := by
      rw [logsLoop_state_pres pre [] stp csp hpreloop hpre]
      rfl
    have hmem := logsFields_first_visible e.Payload stp st1 cfs hf hm hnd hv hstp hd
    have hlen : csp.length = pre.length := logsLoop_length pre [] stp csp hpreloop
    refine ⟨{ Fields := cfs, Description := e.Description,
              Author := e.Author, Timestamp := e.Timestamp }, ?_, hmem⟩
    rw [List.get?_append_right (by simpa using hlen.le), hlen]
    simp

/-- C1 witness: the theorem applied to the concrete two-event history. -/
theorem c1_hidden_redaction_witness :
    (∃ c, c1Changes.get? 0 = some c ∧
      ({ Field := "token", From := HideTextV, To := HideTextV } : ChangeField) ∈ c.Fields) ∧
    (∃ c, c1Changes.get? 1 = some c ∧
      ({ Field := "token", From := .nil, To := .str "t1" } : ChangeField) ∈ c.Fields) := by
  have h := c1_hidden_redaction c1Events c1Changes (by decide)
  refine ⟨?_, ?_⟩
  · exact h.1 0 c1e1 "token" HiddenValue (by decide) (by decide) (by decide)
  · exact h.2.2 [c1e1] c1e2 [] "token" (PlainValue (.str "t1")) (by decide)
      (by decide) (by decide) (by decide) (by decide) (by decide)

theorem logsFields_sets_value {f : String} {d : GoVal} (p : List (String × Value)) :
    ∀ st st' cfs, logsFields st p = some (st', cfs) → (f, PlainValue d) ∈ p →
    (p.map Prod.fst).Nodup → stateGet st' f = d := by
  induction p with
  | nil =>
    intro st st' cfs _ hm
    simp at hm
  | cons kv rest ih =>
    intro st st' cfs h hm hnd
    obtain ⟨g, w⟩ := kv
    simp only [logsFields, Option.bind_eq_some, Option.map_eq_some'] at h
    obtain ⟨⟨st1, cf⟩, hf, ⟨st2, cfs2⟩, hrest, heq⟩ := h
    cases heq
    simp only [List.map_cons, List.nodup_cons] at hnd
    rcases List.mem_cons.mp hm with h1 | h1
    · have hg : g = f := (congrArg Prod.fst h1.symm : _)
      have hw : w = PlainValue d := (congrArg Prod.snd h1.symm : _)
      rw [hg, hw] at hf
      rw [hg] at hnd
      have hst1 : stateGet st1 f = d := by
        simp only [logsField, PlainValue] at hf
        cases hq : goEq (stateGet st f) d with
        | none => rw [hq] at hf; cases hf
        | some b =>
          rw [hq] at hf
          cases b
          · cases hf
            exact stateGet_set_self st f d
          · cases hf
            exact goEq_true_eq hq
      rw [logsFields_state_pres rest st1 st2 cfs2 hrest
        (fun kv hkv hk => absurd (List.mem_map.mpr ⟨kv, hkv, hk⟩) hnd.1)]
      exact hst1
    · exact ih st1 st2 cfs2 hrest h1 hnd.2

theorem logsLoop_singleton (st : State) (e : Event) :
    logsLoop st [e] = (logsFields st e.Payload).map
      (fun r => (r.1, [{ Fields := r.2, Description := e.Description,
                         Author := e.Author, Timestamp := e.Timestamp }])) := by
  simp only [logsLoop]
  cases h : logsFields st e.Payload with
  | none => rfl
  | some r => rfl

theorem logsFields_singleton (st : State) (f : String) (v : Value) :
    logsFields st [(f, v)] = (logsField st f v).map (fun r1 => (r1.1, r1.2)) := by
  simp only [logsFields]
  cases h : logsField st f v with
  | none => rfl
  | some r => simp [logsFields]

/-- C2: in `Logs`, a visible payload entry emits `(field, old, value.Data)`
iff `old` differs from `value.Data` (updating `state[field]` exactly on
emission), and writing the same visible value twice in a row still emits
the second Change — with its Description, Author and Timestamp — but with
no ChangeField for that field. -/
theorem c2_visible_diff :
    (∀ st f d st' cfs, logsField st f (PlainValue d) = some (st', cfs) →
      (goEq (stateGet st f) d = some false ∧
        cfs = [{ Field := f, From := stateGet st f, To := d }] ∧
        stateGet st' f = d) ∨
      (goEq (stateGet st f) d = some true ∧ cfs = [] ∧ st' = st))
    ∧
    (∀ pre e1 e2 f d cs, Logs (pre ++ [e1, e2]) = some cs →
      (f, PlainValue d) ∈ e1.Payload → (e1.Payload.map Prod.fst).Nodup →
      e2.Payload = [(f, PlainValue d)] →
      cs.get? (pre.length + 1) =
        some { Fields := [], Description := e2.Description,
               Author := e2.Author, Timestamp := e2.Timestamp }) := by
  constructor
  · intro st f d st' cfs h
    simp only [logsField, PlainValue] at h
    cases hq : goEq (stateGet st f) d with
    | none => rw [hq] at h; cases h
    | some b =>
      rw [hq] at h
      cases b
      · cases h
        exact Or.inl ⟨rfl, rfl, stateGet_set_self st f d⟩
      · cases h
        exact Or.inr ⟨rfl, rfl, rfl⟩
  · intro pre e1 e2 f d cs h hm hnd hp2
    unfold Logs at h
    rw [Option.map_eq_some'] at h
    obtain ⟨⟨stf, cs0⟩, hloop, hcs⟩ := h
    cases hcs
    rw [show pre ++ [e1, e2] = pre ++ ([e1] ++ [e2]) from rfl] at hloop
    rw [logsLoop_append, Option.bind_eq_some] at hloop
    obtain ⟨⟨stp, csp⟩, hpre, htail⟩ := hloop
    rw [Option.map_eq_some'] at htail
    obtain ⟨⟨ste, cse⟩, hts, heq⟩ := htail
    cases heq
    rw [logsLoop_append, Option.bind_eq_some] at hts
    obtain ⟨⟨sta, csa⟩, h1, h2⟩ := hts
    rw [logsLoop_singleton, Option.map_eq_some'] at h1
    obtain ⟨⟨st1, cfs1⟩, hf1, heqa⟩ := h1
    cases heqa
    rw [Option.map_eq_some'] at h2
    obtain ⟨⟨stb, csb⟩, h2a, heqb⟩ := h2
    cases heqb
    rw [logsLoop_singleton, Option.map_eq_some'] at h2a
    obtain ⟨⟨st2, cfs2⟩, hf2, heqc⟩ := h2a
    cases heqc
    have hst1 : stateGet st1 f = d := logsFields_sets_value e1.Payload stp st1 cfs1 hf1 hm hnd
    have hcfs2 : cfs2 = [] := by
      rw [hp2, logsFields_singleton, Option.map_eq_some'] at hf2
      obtain ⟨⟨stc, cfc⟩, hfc, heqd⟩ := hf2
      cases heqd
      simp only [logsField, PlainValue, hst1] at hfc
      cases hq : goEq d d with
      | none => rw [hq] at hfc; cases hfc
      | some b =>
        have hb : goEq d d = some true := goEq_refl_of_ne_none (by rw [hq]; exact fun hc => Option.noConfusion hc)
        rw [hb] at hfc
        cases hfc
        rfl
    subst hcfs2
    have hlen : csp.length = pre.length := logsLoop_length pre [] stp csp hpre
    rw [List.get?_append_right (by simp [hlen]), hlen]
    simp

/-- C2 witness: the theorem applied to a first write and an identical
repeated write of the field `status`. -/
theorem c2_visible_diff_witness :
    ((goEq (stateGet [] "status") (.str "new") = some false ∧
        [({ Field := "status", From := .nil, To := .str "new" } : ChangeField)] =
          [{ Field := "status", From := stateGet [] "status", To := .str "new" }] ∧
        stateGet [("status", GoVal.str "new")] "status" = .str "new") ∨
      (goEq (stateGet [] "status") (.str "new") = some true ∧
        [({ Field := "status", From := .nil, To := .str "new" } : ChangeField)] = [] ∧
        [("status", GoVal.str "new")] = ([] : State))) ∧
    ([{ Fields := [{ Field := "status", From := .nil, To := .str "new" }],
        Description := "first", Author := "carol", Timestamp := 10 },
      { Fields := [], Description := "second", Author := "dave",
        Timestamp := 11 }] : List Change).get? 1 =
      some { Fields := [], Description := "second", Author := "dave", Timestamp := 11 } := by
  constructor
  · exact c2_visible_diff.1 [] "status" (.str "new")
      [("status", GoVal.str "new")]
      [{ Field := "status", From := .nil, To := .str "new" }] (by decide)
  · exact c2_visible_diff.2 [] c2e1 c2e2 "status" (.str "new")
      [{ Fields := [{ Field := "status", From := .nil, To := .str "new" }],
         Description := "first", Author := "carol", Timestamp := 10 },
       { Fields := [], Description := "second", Author := "dave", Timestamp := 11 }]
      (by decide) (by decide) (by decide) (by decide)

theorem eventsLoop_eq_filter_map (fields : List String) (events : List Event) :
    eventsLoop fields events =
      (events.filter (fun e => payloadHasAny e.Payload fields)).map
        (fun e => { e with Payload := restrictPayload e.Payload fields }) := by
  induction events with
  | nil => rfl
  | cons e rest ih =>
    simp only [eventsLoop, List.filter_cons]
    by_cases hp : payloadHasAny e.Payload fields
    · simp [hp, ih]
    · simp [hp, ih]

/-- C3: with a non-empty field list, `Events` keeps exactly the events
whose payload contains at least one requested field, in their original
order, restricting each kept payload to the requested names (entries are
taken from the event itself, never synthesized); requesting only fields
never written yields the empty sequence. -/
theorem c3_events_filtering (events : List Event) (fields : List String)
    (hne : fields ≠ []) :
    Events events fields =
      (events.filter (fun e => payloadHasAny e.Payload fields)).map
        (fun e => { e with Payload := restrictPayload e.Payload fields }) ∧
    (∀ e' ∈ Events events fields, ∀ kv ∈ e'.Payload,
      fields.contains kv.1 = true ∧
      ∃ e ∈ events, kv ∈ e.Payload) ∧
    ((∀ e ∈ events, ∀ kv ∈ e.Payload, fields.contains kv.1 = false) →
      Events events fields = []) := by
  have hev : Events events fields = eventsLoop fields events := by
    unfold Events
    rw [if_neg (by simpa [List.isEmpty_iff] using hne)]
  refine ⟨hev.trans (eventsLoop_eq_filter_map fields events), ?_, ?_⟩
  · intro e' he' kv hkv
    rw [hev, eventsLoop_eq_filter_map] at he'
    obtain ⟨e, he, heq⟩ := List.mem_map.mp he'
    subst heq
    simp only [restrictPayload] at hkv
    obtain ⟨hmem, hcont⟩ := List.mem_filter.mp hkv
    exact ⟨hcont, e, (List.mem_filter.mp he).1, hmem⟩
  · intro hnone
    rw [hev, eventsLoop_eq_filter_map]
    have : events.filter (fun e => payloadHasAny e.Payload fields) = [] := by
      rw [List.filter_eq_nil_iff]
      intro e he
      simp only [payloadHasAny, Bool.not_eq_true, List.any_eq_false]
      intro kv hkv
      simpa using hnone e he kv hkv
    rw [this]
    rfl

/-- C3 witness: the theorem applied to a two-event history filtered on
the single field `status`. -/
theorem c3_events_filtering_witness :
    Events [c3e1, c3e2] ["status"] =
      (([c3e1, c3e2].filter (fun e => payloadHasAny e.Payload ["status"])).map
        (fun e => { e with Payload := restrictPayload e.Payload ["status"] })) ∧
    (∀ e' ∈ Events [c3e1, c3e2] ["status"], ∀ kv ∈ e'.Payload,
      (["status"] : List String).contains kv.1 = true ∧
      ∃ e ∈ [c3e1, c3e2], kv ∈ e.Payload) ∧
    ((∀ e ∈ [c3e1, c3e2], ∀ kv ∈ e.Payload,
        (["status"] : List String).contains kv.1 = false) →
      Events [c3e1, c3e2] ["status"] = []) :=
  c3_events_filtering [c3e1, c3e2] ["status"] (by decide)

theorem storeGet_cons_self {q : String × List Event} {s : StorageMap} {key : String}
    (h : q.1 = key) : storeGet (q :: s) key = q.2 := by
  unfold storeGet
  rw [List.find?_cons_of_pos _ (by simpa using h)]

theorem storeGet_cons_ne {q : String × List Event} {s : StorageMap} {key : String}
    (h : ¬ q.1 = key) : storeGet (q :: s) key = storeGet s key := by
  unfold storeGet
  rw [List.find?_cons_of_neg _ (by simpa using h)]

theorem storeGet_store_self (s : StorageMap) (key : String) (e : Event) :
    storeGet (storeStore s key e) key = storeGet s key ++ [e] := by
  unfold storeStore
  split
  · next h =>
    induction s with
    | nil => simp at h
    | cons q rest ih =>
      simp only [List.any_cons, Bool.or_eq_true, decide_eq_true_eq] at h
      by_cases hq : q.1 = key
      · simp only [List.map_cons, if_pos hq]
        rw [storeGet_cons_self (rfl : (key, q.2 ++ [e]).1 = key), storeGet_cons_self hq]
      · simp only [List.map_cons, if_neg hq]
        rw [storeGet_cons_ne hq, storeGet_cons_ne hq]
        refine ih ?_
        rcases h with h | h
        · exact absurd h hq
        · exact h
  · next h =>
    induction s with
    | nil =>
      rw [List.nil_append, storeGet_cons_self rfl]
      rfl
    | cons q rest ih =>
      simp only [List.any_cons, Bool.or_eq_true, decide_eq_true_eq] at h
      push_neg at h
      rw [List.cons_append, storeGet_cons_ne h.1, storeGet_cons_ne h.1]
      exact ih (by simpa using h.2)

theorem any_map_store (s : StorageMap) (key k : String) (e : Event) :
    ((s.map (fun p => if p.1 = key then (key, p.2 ++ [e]) else p)).any
      (fun p => decide (p.1 = k))) =
    s.any (fun p => decide (p.1 = k)) := by
  induction s with
  | nil => rfl
  | cons q rest ih =>
    simp only [List.map_cons, List.any_cons, ih]
    by_cases hq : q.1 = key
    · rw [if_pos hq, hq]
    · rw [if_neg hq]

theorem find?_map_store_ne (s : StorageMap) (key k : String) (e : Event)
    (hne : k ≠ key) :
    List.find? (fun p => decide (p.1 = k))
      (s.map (fun p => if p.1 = key then (key, p.2 ++ [e]) else p)) =
    List.find? (fun p => decide (p.1 = k)) s := by
  induction s with
  | nil => rfl
  | cons q rest ih =>
    by_cases hq : q.1 = key
    · simp only [List.map_cons, if_pos hq]
      rw [List.find?_cons_of_neg _ (by simpa using fun hc => hne hc.symm),
          List.find?_cons_of_neg _
            (by simp only [decide_eq_true_eq]; rw [hq]; exact fun hc => hne hc.symm)]
      exact ih
    · simp only [List.map_cons, if_neg hq]
      by_cases hqk : q.1 = k
      · rw [List.find?_cons_of_pos _ (by simpa using hqk),
            List.find?_cons_of_pos _ (by simpa using hqk)]
      · rw [List.find?_cons_of_neg _ (by simpa using hqk),
            List.find?_cons_of_neg _ (by simpa using hqk)]
        exact ih

theorem find?_append_store_ne (s : StorageMap) (key k : String) (e : Event)
    (hne : k ≠ key) :
    List.find? (fun p => decide (p.1 = k)) (s ++ [(key, [e])]) =
    List.find? (fun p => decide (p.1 = k)) s := by
  rw [List.find?_append]
  cases hfind : List.find? (fun p => decide (p.1 = k)) s with
  | none =>
    simp only [Option.none_or]
    rw [List.find?_cons_of_neg _ (by simpa using fun hc => hne hc.symm)]
    rfl
  | some p => rfl

theorem storeGet_store_ne (s : StorageMap) (key k : String) (e : Event)
    (hne : k ≠ key) : storeGet (storeStore s key e) k = storeGet s k := by
  unfold storeStore
  split
  · simp [storeGet, find?_map_store_ne s key k e hne]
  · simp [storeGet, find?_append_store_ne s key k e hne]

theorem storeHas_store_ne (s : StorageMap) (key k : String) (e : Event)
    (hne : k ≠ key) : storeHas (storeStore s key e) k = storeHas s k := by
  unfold storeStore storeHas
  split
  · exact any_map_store s key k e
  · simp only [List.any_append, List.any_cons, List.any_nil]
    have hd : decide ((key, [e]).1 = k) = false := by
      simpa using fun hc => hne hc.symm
    simp [hd]

theorem storeGet_applyWrites (l : List (String × WriteCall)) :
    ∀ s key, storeGet (applyWrites s l) key =
      storeGet s key ++
        ((l.filter (fun c => decide (c.1 = key))).map (fun c => c.2.toEvent)) := by
  induction l with
  | nil =>
    intro s key
    simp [applyWrites]
  | cons c rest ih =>
    intro s key
    obtain ⟨k, w⟩ := c
    simp only [applyWrites, List.filter_cons]
    have hlc : LogChange s k w.action w.author w.description w.payload w.timestamp =
        storeStore s k w.toEvent := rfl
    by_cases hk : k = key
    · subst hk
      rw [ih, hlc, storeGet_store_self]
      simp [List.append_assoc]
    · rw [ih, hlc, storeGet_store_ne s k key w.toEvent (fun hc => hk hc.symm)]
      simp [hk]

theorem storeHas_applyWrites_ne (l : List (String × WriteCall)) :
    ∀ s key, (∀ c ∈ l, c.1 ≠ key) →
      storeHas (applyWrites s l) key = storeHas s key := by
  induction l with
  | nil =>
    intro s key _
    rfl
  | cons c rest ih =>
    intro s key hall
    obtain ⟨k, w⟩ := c
    simp only [applyWrites]
    rw [ih _ key (fun c hc => hall c (List.mem_cons_of_mem _ hc))]
    exact storeHas_store_ne s k key w.toEvent
      (fun hc => hall (k, w) (List.mem_cons_self _ _) hc.symm)

theorem Logs_length {events : List Event} {cs : List Change}
    (h : Logs events = some cs) : cs.length = events.length := by
  unfold Logs at h
  rw [Option.map_eq_some'] at h
  obtain ⟨⟨stf, cs0⟩, hloop, hcs⟩ := h
  cases hcs
  exact logsLoop_length events [] stf cs0 hloop

theorem Logs_metadata {events : List Event} {cs : List Change}
    (h : Logs events = some cs) :
    cs.map (fun c => (c.Description, c.Author, c.Timestamp)) =
      events.map (fun e => (e.Description, e.Author, e.Timestamp)) := by
  unfold Logs at h
  rw [Option.map_eq_some'] at h
  obtain ⟨⟨stf, cs0⟩, hloop, hcs⟩ := h
  cases hcs
  exact logsLoop_metadata events [] stf cs0 hloop

/-- C4 counterexample: two write calls on a key whose payload repeats the
same non-comparable slice value; `Events` returns the 2 events, but
`Logs` does not return 2 Changes — the no-op equality check panics. -/
theorem c4_counterexample :
    (loggerEvents (applyWrites [] [("k", sliceWrite 1), ("k", sliceWrite 2)]) "k" []).length = 2 ∧
    loggerLogs (applyWrites [] [("k", sliceWrite 1), ("k", sliceWrite 2)]) "k" = none := by
  decide

/-- C4 (amended): for any sequence of N write calls on a key, `Events`
with no field filter returns exactly N events, and whenever `Logs`
returns at all it returns exactly N Changes carrying the input events'
Description, Author and Timestamp in original call order. -/
theorem c4_one_change_per_event (key : String) (ws : List WriteCall) (s : StorageMap)
    (hs : s = applyWrites [] (ws.map (fun w => (key, w)))) :
    (loggerEvents s key []).length = ws.length ∧
    (∀ cs, loggerLogs s key = some cs → cs.length = ws.length ∧
      cs.map (fun c => (c.Description, c.Author, c.Timestamp)) =
        ws.map (fun w => (w.description, w.author, w.timestamp))) := by
  subst hs
  have hget : storeGet (applyWrites [] (ws.map (fun w => (key, w)))) key =
      ws.map (fun w => w.toEvent) := by
    rw [storeGet_applyWrites]
    have : (ws.map (fun w => (key, w))).filter (fun c => decide (c.1 = key)) =
        ws.map (fun w => (key, w)) := by
      rw [List.filter_eq_self]
      intro c hc
      obtain ⟨w, _, heq⟩ := List.mem_map.mp hc
      subst heq
      simp
    rw [this]
    simp [storeGet, List.map_map, Function.comp]
  constructor
  · simp [loggerEvents, Events, hget]
  · intro cs hcs
    unfold loggerLogs at hcs
    rw [hget] at hcs
    refine ⟨by simpa using Logs_length hcs, ?_⟩
    rw [Logs_metadata hcs, List.map_map]
    rfl

/-- C4 witness: the amended theorem applied to two concrete write calls. -/
theorem c4_one_change_per_event_witness :
    (loggerEvents (applyWrites [] ([plainWrite 1, plainWrite 2].map (fun w => ("k", w)))) "k" []).length = 2 ∧
    (∀ cs, loggerLogs (applyWrites [] ([plainWrite 1, plainWrite 2].map (fun w => ("k", w)))) "k" = some cs →
      cs.length = 2 ∧
      cs.map (fun c => (c.Description, c.Author, c.Timestamp)) =
        [plainWrite 1, plainWrite 2].map (fun w => (w.description, w.author, w.timestamp))) :=
  c4_one_change_per_event "k" [plainWrite 1, plainWrite 2] _ rfl

/-- C5: `Logs` is NOT total on all stored payloads: for the stored
history `c5Events` — the same non-comparable slice value visibly written
twice for one field — the `old != val.Data` comparison panics (comparing
two `any` values of the same non-comparable dynamic type), so `Logs`
crashes instead of returning.  The spec requires that it must not crash. -/
theorem c5_logs_crashes_on_noncomparable :
    loggerLogs (applyWrites [] [("k", sliceWrite 1), ("k", sliceWrite 2)]) "k" = none ∧
    Logs c5Events = none ∧
    goEq (.slice "[]int" ["1", "2", "3"]) (.slice "[]int" ["1", "2", "3"]) = none := by
  decide

/-- C6 counterexample: the caller takes the events returned by
`Events(key)` (no filter), writes through the payload-map reference held
by the first returned event, and a subsequent `Events(key)` observes the
mutated payload: the returned structures are not a defensive deep copy. -/
theorem c6_counterexample :
    (eventsNoFilterR c6Store "k").map
        (derefEvent (heapSet c6Heap
          ((eventsNoFilterR c6Store "k").headD dummyEventR).Payload
          [("color", PlainValue (.str "blue"))])) ≠
      (eventsNoFilterR c6Store "k").map (derefEvent c6Heap) := by
  decide

/-- C6 (amended): `Events(key)` with no field filter returns a shallow
copy — a fresh sequence whose `Event` structs still hold the stored
payload maps by reference: the returned event at index `i` has the same
payload address as the stored event at index `i`, so a caller write
through that reference is observed when dereferencing the stored event. -/
theorem c6_shallow_copy (s : StorageR) (key : String) (i : Nat) (e es : EventR)
    (h1 : (eventsNoFilterR s key).get? i = some e)
    (h2 : (storeGetR s key).get? i = some es) :
    e.Payload = es.Payload ∧
    ∀ h m, e.Payload < h.length →
      heapGet (heapSet h es.Payload m) e.Payload = m := by
  have hee : e = es := by
    unfold eventsNoFilterR at h1
    rw [h1] at h2
    exact Option.some.inj h2
  subst hee
  refine ⟨rfl, ?_⟩
  intro h m hlt
  unfold heapGet heapSet
  rw [List.get?_eq_getElem?]
  simp [List.getElem?_set_self, hlt]

/-- C6 witness: the amended theorem applied to the concrete one-event
store, with a concrete heap mutation. -/
theorem c6_shallow_copy_witness :
    (({ Timestamp := 1, Action := ActionCreate, Author := "hugo",
        Description := "painted", Payload := 0 } : EventR).Payload =
      ({ Timestamp := 1, Action := ActionCreate, Author := "hugo",
         Description := "painted", Payload := 0 } : EventR).Payload) ∧
    (∀ h m, ({ Timestamp := 1, Action := ActionCreate, Author := "hugo",
               Description := "painted", Payload := 0 } : EventR).Payload < h.length →
      heapGet (heapSet h ({ Timestamp := 1, Action := ActionCreate, Author := "hugo",
                            Description := "painted", Payload := 0 } : EventR).Payload m)
          ({ Timestamp := 1, Action := ActionCreate, Author := "hugo",
             Description := "painted", Payload := 0 } : EventR).Payload = m) :=
  c6_shallow_copy c6Store "k" 0
    { Timestamp := 1, Action := ActionCreate, Author := "hugo",
      Description := "painted", Payload := 0 }
    { Timestamp := 1, Action := ActionCreate, Author := "hugo",
      Description := "painted", Payload := 0 }
    (by decide) (by decide)

theorem logsField_congr {f1 f2 : String} {v1 v2 : Value} (st : State)
    (hf : f1 = f2) (hh : v1.Hidden = v2.Hidden)
    (hd : v1.Hidden = true ∨ v1.Data = v2.Data) :
    logsField st f1 v1 = logsField st f2 v2 := by
  subst hf
  unfold logsField
  by_cases h1 : v1.Hidden = true
  · rw [if_pos h1, if_pos (hh ▸ h1)]
  · have hd2 : v1.Data = v2.Data := by
      rcases hd with hd | hd
      · exact absurd hd h1
      · exact hd
    rw [if_neg h1, if_neg (hh ▸ h1), hd2]

theorem logsFields_congr (p1 : List (String × Value)) :
    ∀ p2 st, payloadSimB p1 p2 = true → logsFields st p1 = logsFields st p2 := by
  induction p1 with
  | nil =>
    intro p2 st h
    cases p2 with
    | nil => rfl
    | cons b bs => simp [payloadSimB] at h
  | cons a as ih =>
    intro p2 st h
    cases p2 with
    | nil => simp [payloadSimB] at h
    | cons b bs =>
      simp only [payloadSimB, Bool.and_eq_true, decide_eq_true_eq] at h
      obtain ⟨⟨hf, hv⟩, hrest⟩ := h
      simp only [valueSimB, Bool.and_eq_true, Bool.or_eq_true, beq_iff_eq,
        decide_eq_true_eq] at hv
      obtain ⟨a1, v1⟩ := a
      obtain ⟨b1, w1⟩ := b
      simp only [logsFields]
      rw [logsField_congr st hf hv.1 hv.2]
      cases hlf : logsField st b1 w1 with
      | none => rfl
      | some r1 =>
        simp only [Option.some_bind]
        rw [ih bs r1.1 hrest]

theorem logsLoop_congr (es1 : List Event) :
    ∀ es2 st, eventsSimB es1 es2 = true → logsLoop st es1 = logsLoop st es2 := by
  induction es1 with
  | nil =>
    intro es2 st h
    cases es2 with
    | nil => rfl
    | cons b bs => simp [eventsSimB] at h
  | cons a as ih =>
    intro es2 st h
    cases es2 with
    | nil => simp [eventsSimB] at h
    | cons b bs =>
      simp only [eventsSimB, Bool.and_eq_true] at h
      obtain ⟨ha, hrest⟩ := h
      simp only [eventSimB, Bool.and_eq_true, decide_eq_true_eq] at ha
      obtain ⟨⟨⟨⟨hts, hac⟩, hau⟩, hde⟩, hp⟩ := ha
      simp only [logsLoop]
      rw [logsFields_congr a.Payload b.Payload st hp]
      cases hlf : logsFields st b.Payload with
      | none => rfl
      | some r1 =>
        simp only [Option.some_bind]
        rw [ih bs r1.1 hrest, hts, hau, hde]

/-- C7: the output of `Logs` is independent of the data carried by hidden
values: two stored histories that are identical except in the `Data` of
entries whose `Hidden` flag is set produce identical `Logs` results —
hidden data never reaches a ChangeField or the running state. -/
theorem c7_hidden_noninterference (es1 es2 : List Event)
    (h : eventsSimB es1 es2 = true) : Logs es1 = Logs es2 := by
  unfold Logs
  rw [logsLoop_congr es1 es2 [] h]

/-- C7 witness: two one-event histories whose hidden `card` values carry
different secrets yield identical Logs output. -/
theorem c7_hidden_noninterference_witness :
    Logs c7Events1 = Logs c7Events2 :=
  c7_hidden_noninterference c7Events1 c7Events2 (by decide)

/-- C8: constructing the slog bridge without a key-resolution rule panics
at construction time (fail fast); with one supplied, construction
succeeds, keeps the given extractors, and fills in the default
extractors for the absent ones. -/
theorem c8_newhandler_fail_fast (opts : Slog.HandlerOptions) :
    (Slog.NewHandler opts = none ↔ opts.KeyExtractor = none) ∧
    (∀ ke, opts.KeyExtractor = some ke →
      ∃ h, Slog.NewHandler opts = some h ∧ h.keyExtractor = ke ∧
        h.handler = opts.Handler ∧ h.shouldAudit = opts.ShouldAudit ∧
        h.attrs = [] ∧
        h.actionExtractor = opts.ActionExtractor.getD Slog.DefaultActionExtractor ∧
        h.authorExtractor = opts.AuthorExtractor.getD Slog.DefaultAuthorExtractor ∧
        h.payloadExtractor = opts.PayloadExtractor.getD Slog.DefaultPayloadExtractor) := by
  constructor
  · cases hk : opts.KeyExtractor with
    | none => simp [Slog.NewHandler, hk]
    | some ke => simp [Slog.NewHandler, hk]
  · intro ke hke
    have hnh : Slog.NewHandler opts = some
        { handler := opts.Handler, shouldAudit := opts.ShouldAudit,
          keyExtractor := ke,
          actionExtractor := opts.ActionExtractor.getD Slog.DefaultActionExtractor,
          authorExtractor := opts.AuthorExtractor.getD Slog.DefaultAuthorExtractor,
          payloadExtractor := opts.PayloadExtractor.getD Slog.DefaultPayloadExtractor,
          attrs := [] } := by
      unfold Slog.NewHandler
      rw [hke]
    exact ⟨_, hnh, rfl, rfl, rfl, rfl, rfl, rfl, rfl⟩

/-- C8 witness: construction fails on options with no key extractor and
succeeds, with defaults filled in, on options carrying only one. -/
theorem c8_newhandler_fail_fast_witness :
    Slog.NewHandler c8optsNone = none ∧
    (∃ h, Slog.NewHandler c8opts = some h ∧ h.keyExtractor = c8ke ∧
      h.handler = c8opts.Handler ∧ h.shouldAudit = c8opts.ShouldAudit ∧
      h.attrs = [] ∧
      h.actionExtractor = c8opts.ActionExtractor.getD Slog.DefaultActionExtractor ∧
      h.authorExtractor = c8opts.AuthorExtractor.getD Slog.DefaultAuthorExtractor ∧
      h.payloadExtractor = c8opts.PayloadExtractor.getD Slog.DefaultPayloadExtractor) :=
  ⟨(c8_newhandler_fail_fast c8optsNone).1.mpr rfl,
   (c8_newhandler_fail_fast c8opts).2 c8ke rfl⟩

theorem mapSet_mem {acc : List (String × Value)} {k : String} {v : Value}
    {kv : String × Value} (h : kv ∈ Slog.mapSet acc k v) : kv.1 = k ∨ kv ∈ acc := by
  unfold Slog.mapSet at h
  split at h
  · obtain ⟨p, hp, heq⟩ := List.mem_map.mp h
    by_cases hpk : p.1 = k
    · rw [if_pos hpk] at heq
      exact Or.inl (by rw [← heq])
    · rw [if_neg hpk] at heq
      exact Or.inr (heq ▸ hp)
  · rcases List.mem_append.mp h with h1 | h1
    · exact Or.inr h1
    · exact Or.inl (by rw [List.mem_singleton.mp h1])

theorem defaultPayload_not_reserved_aux (attrs : List Slog.Attr) :
    ∀ acc, (∀ kv ∈ acc, Slog.reservedKeys.contains kv.1 = false) →
    ∀ kv ∈ attrs.foldl
      (fun acc a =>
        if Slog.reservedKeys.contains a.Key then acc
        else Slog.mapSet acc a.Key (PlainValue a.Val)) acc,
      Slog.reservedKeys.contains kv.1 = false := by
  induction attrs with
  | nil =>
    intro acc hacc kv hkv
    exact hacc kv hkv
  | cons a rest ih =>
    intro acc hacc kv hkv
    simp only [List.foldl_cons] at hkv
    by_cases hres : Slog.reservedKeys.contains a.Key
    · rw [if_pos hres] at hkv
      exact ih acc hacc kv hkv
    · rw [if_neg hres] at hkv
      refine ih _ ?_ kv hkv
      intro kv2 hkv2
      rcases mapSet_mem hkv2 with h1 | h1
      · rw [h1]
        simpa using hres
      · exact hacc kv2 h1

theorem defaultPayload_not_reserved (attrs : List Slog.Attr) :
    ∀ kv ∈ Slog.DefaultPayloadExtractor attrs,
      Slog.reservedKeys.contains kv.1 = false :=
  defaultPayload_not_reserved_aux attrs [] (by intro kv h; simp at h)

/-- C9: for a record handled by the adapter with default extractors (and
a non-failing delegate): an unresolved entity key means no Engine call
and a nil error; a resolved key yields exactly one Engine call whose
action defaults to `create` when the action attribute is missing or
unrecognized, whose author defaults to `"system"` when no author/user
attribute exists, and whose payload contains no reserved attribute key. -/
theorem c9_handle_defaults (h : Slog.Handler) (r : Slog.Record)
    (hact : h.actionExtractor = Slog.DefaultActionExtractor)
    (hauth : h.authorExtractor = Slog.DefaultAuthorExtractor)
    (hpay : h.payloadExtractor = Slog.DefaultPayloadExtractor)
    (hdel : ∀ d, h.handler = some d → d r = none) :
    (h.keyExtractor (h.attrs ++ r.attrs) = none → Slog.handle h r = (none, none)) ∧
    (∀ key, h.keyExtractor (h.attrs ++ r.attrs) = some key →
      (∀ f, h.shouldAudit = some f → f r = true) →
      ∃ c, Slog.handle h r = (none, some c) ∧ c.key = key ∧
        c.description = r.Message ∧
        ((h.attrs ++ r.attrs).find? (fun a => decide (a.Key = Slog.AttrAction)) = none →
          c.action = ActionCreate) ∧
        (∀ a, (h.attrs ++ r.attrs).find?
            (fun a => decide (a.Key = Slog.AttrAction)) = some a →
          Slog.goValString a.Val ≠ "create" → Slog.goValString a.Val ≠ "update" →
          Slog.goValString a.Val ≠ "delete" → c.action = ActionCreate) ∧
        ((h.attrs ++ r.attrs).find?
            (fun a => decide (a.Key = Slog.AttrAuthor ∨ a.Key = Slog.AttrUser)) = none →
          c.author = "system") ∧
        (∀ kv ∈ c.payload, Slog.reservedKeys.contains kv.1 = false)) := by
  have hh : Slog.handle h r = Slog.handleAudit h r := by
    unfold Slog.handle
    split
    · next d heq => rw [hdel d heq]
    · rfl
  constructor
  · intro hkey
    rw [hh]
    unfold Slog.handleAudit
    split
    · next f heq =>
      by_cases hf : f r
      · rw [if_pos hf]
        simp only [Slog.handleCore]
        rw [hkey]
      · rw [if_neg hf]
    · simp only [Slog.handleCore]
      rw [hkey]
  · intro key hkey hsa
    have hcore : Slog.handle h r = Slog.handleCore h r := by
      rw [hh]
      unfold Slog.handleAudit
      split
      · next f heq => simp [hsa f heq]
      · rfl
    rw [hcore]
    simp only [Slog.handleCore]
    rw [hkey]
    refine ⟨_, rfl, rfl, rfl, ?_, ?_, ?_, ?_⟩
    · intro hfind
      rw [hact]
      unfold Slog.DefaultActionExtractor
      rw [hfind]
    · intro a hfind h1 h2 h3
      rw [hact]
      unfold Slog.DefaultActionExtractor
      rw [hfind]
      split <;> simp_all [ActionCreate]
    · intro hfind
      rw [hauth]
      unfold Slog.DefaultAuthorExtractor
      rw [hfind]
    · rw [hpay]
      exact defaultPayload_not_reserved _

/-- C9 witness: a handler that resolves no key skips with success; the
default-extractor handler on a record carrying only `entity` and `qty`
makes one Engine call with action `create`, author `"system"`, and a
payload free of reserved keys. -/
theorem c9_handle_defaults_witness :
    Slog.handle c9handlerNoKey c9record = (none, none) ∧
    (∃ c, Slog.handle c9handler c9record = (none, some c) ∧ c.key = "order:7" ∧
      c.description = c9record.Message ∧
      ((c9handler.attrs ++ c9record.attrs).find?
          (fun a => decide (a.Key = Slog.AttrAction)) = none →
        c.action = ActionCreate) ∧
      (∀ a, (c9handler.attrs ++ c9record.attrs).find?
          (fun a => decide (a.Key = Slog.AttrAction)) = some a →
        Slog.goValString a.Val ≠ "create" → Slog.goValString a.Val ≠ "update" →
        Slog.goValString a.Val ≠ "delete" → c.action = ActionCreate) ∧
      ((c9handler.attrs ++ c9record.attrs).find?
          (fun a => decide (a.Key = Slog.AttrAuthor ∨ a.Key = Slog.AttrUser)) = none →
        c.author = "system") ∧
      (∀ kv ∈ c.payload, Slog.reservedKeys.contains kv.1 = false)) :=
  ⟨(c9_handle_defaults c9handlerNoKey c9record rfl rfl rfl
      (fun _ hd => nomatch hd)).1 rfl,
   (c9_handle_defaults c9handler c9record rfl rfl rfl
      (fun _ hd => nomatch hd)).2 "order:7" rfl (fun _ hf => nomatch hf)⟩

/-- C10: for a key never written — any write history touching only other
keys — `Events` returns the empty sequence under every field filter, and
`Has` is false; both reads are total functions, so they never fail. -/
theorem c10_unknown_key_reads (key : String) (calls : List (String × WriteCall))
    (h : ∀ c ∈ calls, c.1 ≠ key) :
    (∀ fields, loggerEvents (applyWrites [] calls) key fields = []) ∧
    storeHas (applyWrites [] calls) key = false := by
  have hget : storeGet (applyWrites [] calls) key = [] := by
    rw [storeGet_applyWrites]
    have hf : calls.filter (fun c => decide (c.1 = key)) = [] := by
      rw [List.filter_eq_nil_iff]
      intro c hc
      simpa using h c hc
    rw [hf]
    simp [storeGet]
  constructor
  · intro fields
    unfold loggerEvents
    rw [hget]
    unfold Events
    split
    · rfl
    · rfl
  · rw [storeHas_applyWrites_ne calls [] key h]
    rfl

/-- C10 witness: after one write to a different key, reads of the key
`missing` return the empty sequence and `Has` is false. -/
theorem c10_unknown_key_reads_witness :
    (∀ fields, loggerEvents (applyWrites [] [("other", plainWrite 5)]) "missing" fields = []) ∧
    storeHas (applyWrites [] [("other", plainWrite 5)]) "missing" = false :=
  c10_unknown_key_reads "missing" [("other", plainWrite 5)] (by decide)

end Audit
